import Mathlib

/-!
Verification of the question-extractor's math-token converter and HTML
structural sanitizer (`example.py`).  The Python code is shallowly embedded:
strings become `List Char`, each `re.sub` call becomes an explicit
left-to-right scanner with a deterministic per-position matcher that mirrors
the regex's (backtracking) semantics, and the BeautifulSoup fragment is an
explicit node tree.  ASCII semantics are used for the character classes
`\d`, `[a-zA-Z]`, `\w` (the repository's data is ASCII plus the specific
math symbols handled explicitly).
-/

namespace QExtract

/-- Characters removed by the first substitution in
`convert_plain_math_to_latex`: zero-width space/non-joiner/joiner and the
non-breaking space. -/
def isInvisible (c : Char) : Bool :=
  c == '\u200B' || c == '\u200C' || c == '\u200D' || c == '\u00A0'

/-- Whitespace as recognised by Python's `str.strip` and the regex class
`\s` (modelled by the same set: ASCII whitespace plus the common Unicode
space code points). -/
def pyIsSpace (c : Char) : Bool :=
  c == ' ' || c == '\t' || c == '\n' || c == '\r' || c == '\x0b' || c == '\x0c' ||
  c == '\x1c' || c == '\x1d' || c == '\x1e' || c == '\x1f' || c == '\x85' ||
  c == '\u00A0' || c == '\u1680' ||
  (0x2000 ≤ c.val && c.val ≤ 0x200a) ||
  c == '\u2028' || c == '\u2029' || c == '\u202F' || c == '\u205F' || c == '\u3000'

/-- Negation of `isInvisible`, as a reusable predicate. -/
def notInvCh (c : Char) : Bool := !isInvisible c

/-- Removal of the invisible characters (`re.sub(r'[zwsp...]', '', text)`). -/
def removeInv (l : List Char) : List Char :=
  l.filter notInvCh

/-- Drop trailing characters satisfying `p` (right half of `str.strip`). -/
def stripEndL (p : Char → Bool) (l : List Char) : List Char :=
  (l.reverse.dropWhile p).reverse

/-- Python `str.strip()` on a character list. -/
def stripL (l : List Char) : List Char :=
  stripEndL pyIsSpace (l.dropWhile pyIsSpace)

/-- Whether `pat` is an initial segment of `l` (Python `str.startswith`). -/
def startsWithL : List Char → List Char → Bool
  | [], _ => true
  | _ :: _, [] => false
  | p :: ps, c :: cs => p == c && startsWithL ps cs

/-- Whether `pat` is a final segment of `l` (Python `str.endswith`). -/
def endsWithL (pat l : List Char) : Bool :=
  startsWithL pat.reverse l.reverse

/-- Whether `pat` occurs as a contiguous substring of `l` (`re.search` on a
literal pattern, or Python `in`). -/
def hasSubL (pat : List Char) : List Char → Bool
  | [] => pat.isEmpty
  | c :: cs => startsWithL pat (c :: cs) || hasSubL pat cs

/-- Python `str.replace` for a single-character needle: every occurrence of
`c` is replaced by `rep`. -/
def replCh (c : Char) (rep : List Char) (l : List Char) : List Char :=
  (l.map (fun a => if a == c then rep else [a])).flatten

/-- Generic `re.sub` scanner, fuelled so that it is structurally recursive
(and hence evaluates in the kernel).  `f` is the per-position matcher:
given the remaining text it either fails or returns the replacement text
together with `k` such that `k + 1` characters of the text are consumed
(every pattern below matches at least one character).  On failure the scan
advances by one character, exactly like the regex engine.  One unit of
fuel covers at least one consumed character, so `l.length` fuel is always
enough. -/
def subScanF (f : List Char → Option (List Char × Nat)) :
    Nat → List Char → List Char
  | 0, l => l
  | _ + 1, [] => []
  | fuel + 1, c :: cs =>
    match f (c :: cs) with
    | some (rep, k) => rep ++ subScanF f fuel (cs.drop k)
    | none => c :: subScanF f fuel cs

/-- A full `re.sub` pass with matcher `f`. -/
def subScan (f : List Char → Option (List Char × Nat)) (l : List Char) : List Char :=
  subScanF f l.length l

/-- Variant of `subScanF` that also tracks the character preceding the
current position in the *original* text (needed for the `\b` word-boundary
assertions of the subscript pattern).  After a match the tracked character
is the last character consumed from the input, as in Python's `re`. -/
def subScanBF (f : Option Char → List Char → Option (List Char × Nat)) :
    Nat → Option Char → List Char → List Char
  | 0, _, l => l
  | _ + 1, _, [] => []
  | fuel + 1, p, c :: cs =>
    match f p (c :: cs) with
    | some (rep, k) => rep ++ subScanBF f fuel ((c :: cs).get? k) (cs.drop k)
    | none => c :: subScanBF f fuel (some c) cs

/-- A full boundary-aware `re.sub` pass with matcher `f`. -/
def subScanB (f : Option Char → List Char → Option (List Char × Nat))
    (p : Option Char) (l : List Char) : List Char :=
  subScanBF f l.length p l

/-- Step 1 of the converter: the fixed symbol-replacement table, applied in
source order (`α β γ θ Ω π → ^ ∆`); `→` and `^` become the intermediate
`vec`/`hat` markers. -/
def symbolsPass (l : List Char) : List Char :=
  replCh '∆' "\\Delta".data <|
  replCh '^' "\\hat".data <|
  replCh '→' "\\vec".data <|
  replCh 'π' "\\pi".data <|
  replCh 'Ω' "\\Omega".data <|
  replCh 'θ' "\\theta".data <|
  replCh 'γ' "\\gamma".data <|
  replCh 'β' "\\beta".data <|
  replCh 'α' "\\alpha".data l

/-- Token class of the fraction pattern: `[a-zA-Z0-9\(\)\-]`. -/
def fracTok (c : Char) : Bool :=
  c.isAlpha || c.isDigit || c == '(' || c == ')' || c == '-'

/-- Matcher for `([a-zA-Z0-9\(\)\-]+)\s*[∕/]\s*([a-zA-Z0-9\(\)\-]+)`.
Both token runs are maximal (the classes are disjoint from whitespace and
from the two slash characters, so the regex cannot backtrack into a
different split). -/
def matchFrac (l : List Char) : Option (List Char × Nat) :=
  let t1 := l.takeWhile fracTok
  if t1.isEmpty then none else
  let r1 := l.drop t1.length
  let w1 := r1.takeWhile pyIsSpace
  match r1.drop w1.length with
  | [] => none
  | s :: r3 =>
    if s == '/' || s == '∕' then
      let w2 := r3.takeWhile pyIsSpace
      let t2 := (r3.drop w2.length).takeWhile fracTok
      if t2.isEmpty then none
      else some ("\\frac\x7b".data ++ t1 ++ "\x7d\x7b".data ++ t2 ++ "\x7d".data,
                 t1.length + w1.length + w2.length + t2.length)
    else none

/-- Character class of the square-root body: `[a-zA-Z0-9\(\) {}+-]`. -/
def sqrtCls (c : Char) : Bool :=
  c.isAlpha || c.isDigit || c == '(' || c == ')' || c == ' ' ||
  c == '\x7b' || c == '\x7d' || c == '+' || c == '-'

/-- Backtracking search for the `\s*([class]+)` tail of the square-root
patterns: the whitespace run is tried longest-first (indices `j`, `j-1`,
..., `0`); the group is the maximal class run from the chosen offset.
Returns the group and the total number of characters consumed. -/
def sqrtTry (r : List Char) : Nat → Option (List Char × Nat)
  | 0 =>
    let g := r.takeWhile sqrtCls
    if g.isEmpty then none else some (g, g.length)
  | j + 1 =>
    let g := (r.drop (j + 1)).takeWhile sqrtCls
    if g.isEmpty then sqrtTry r j else some (g, j + 1 + g.length)

/-- Matcher for `√\s*([a-zA-Z0-9\(\) {}+-]+)`. -/
def matchSqrtSym (l : List Char) : Option (List Char × Nat) :=
  match l with
  | '√' :: rest =>
    (sqrtTry rest (rest.takeWhile pyIsSpace).length).map
      (fun p => ("\\sqrt\x7b".data ++ p.1 ++ "\x7d".data, p.2))
  | _ => none

/-- Matcher for `sqrt\s*([a-zA-Z0-9\(\) {}+-]+)` (the literal word form). -/
def matchSqrtWord (l : List Char) : Option (List Char × Nat) :=
  if startsWithL "sqrt".data l then
    (sqrtTry (l.drop 4) ((l.drop 4).takeWhile pyIsSpace).length).map
      (fun p => ("\\sqrt\x7b".data ++ p.1 ++ "\x7d".data, 3 + p.2))
  else none

/-- Replacement text of the degree rewrite: the literal `^` followed by the
brace-wrapped `\circ` command.  Note that it does not reference any of the
capture groups, so the matched digits are discarded. -/
def degRep : List Char := "^\x7b\\circ\x7d".data

/-- Matcher for `(\d+)\s*circ|(\d+)°|(\d+)∘`, trying the alternatives in
order at each position; all three start with the same maximal digit run. -/
def matchDeg (l : List Char) : Option (List Char × Nat) :=
  let d := l.takeWhile Char.isDigit
  if d.isEmpty then none else
  let r := l.drop d.length
  let w := r.takeWhile pyIsSpace
  if startsWithL "circ".data (r.drop w.length) then
    some (degRep, d.length + w.length + 3)
  else
    match r with
    | '°' :: _ => some (degRep, d.length)
    | '∘' :: _ => some (degRep, d.length)
    | _ => none

/-- Word characters for the `\b` assertions (`[a-zA-Z0-9_]`). -/
def isWordCh (c : Char) : Bool :=
  c.isAlphanum || c == '_'

/-- A word boundary holds before a word character iff the preceding
character (if any) is not a word character. -/
def atBoundary (p : Option Char) : Bool :=
  match p with
  | none => true
  | some c => !isWordCh c

/-- The negative-lookahead test of the subscript pattern: does one of the
unit abbreviations `mH mA ms cm kg gm rad mol nm eV atm` occur at the
current position? -/
def unitHit (l : List Char) : Bool :=
  startsWithL "mH".data l || startsWithL "mA".data l || startsWithL "ms".data l ||
  startsWithL "cm".data l || startsWithL "kg".data l || startsWithL "gm".data l ||
  startsWithL "rad".data l || startsWithL "mol".data l || startsWithL "nm".data l ||
  startsWithL "eV".data l || startsWithL "atm".data l

/-- Matcher for the subscript pattern with the lookahead removed:
`\b([a-zA-Z])(\d+)\b` with replacement `\1_{\2}`.  The digit run is
maximal and the trailing `\b` requires the next character to be a
non-word character (or the end of the text). -/
def matchSubNoLA (p : Option Char) (l : List Char) : Option (List Char × Nat) :=
  if atBoundary p then
    match l with
    | c :: rest =>
      if c.isAlpha then
        let d := rest.takeWhile Char.isDigit
        if d.isEmpty then none
        else
          let ok := match rest.drop d.length with
            | [] => true
            | c2 :: _ => !isWordCh c2
          if ok then some ([c] ++ "_\x7b".data ++ d ++ "\x7d".data, d.length)
          else none
      else none
    | [] => none
  else none

/-- Matcher for the full subscript pattern
`\b(?!mH|mA|ms|cm|kg|gm|rad|mol|nm|eV|atm)([a-zA-Z])(\d+)\b`. -/
def matchSub (p : Option Char) (l : List Char) : Option (List Char × Nat) :=
  if atBoundary p then
    if unitHit l then none else matchSubNoLA p l
  else none

/-- Matcher replacing a fixed literal word (used for `tan sin cos log ln`
and for the `<br>` normalisation); `pat` must be non-empty. -/
def litMatch (pat rep : List Char) (l : List Char) : Option (List Char × Nat) :=
  if pat.isEmpty then none
  else if startsWithL pat l then some (rep, pat.length - 1) else none

/-- Matcher for `\\vec([a-zA-Z0-9]+)` with replacement `\vec{\1}`. -/
def matchVec (l : List Char) : Option (List Char × Nat) :=
  if startsWithL "\\vec".data l then
    let g := (l.drop 4).takeWhile Char.isAlphanum
    if g.isEmpty then none
    else some ("\\vec\x7b".data ++ g ++ "\x7d".data, 3 + g.length)
  else none

/-- Matcher for `\\hat([a-zA-Z])` with replacement `\hat{\1}`. -/
def matchHat (l : List Char) : Option (List Char × Nat) :=
  if startsWithL "\\hat".data l then
    match l.drop 4 with
    | c :: _ => if c.isAlpha then some ("\\hat\x7b".data ++ [c] ++ "\x7d".data, 4) else none
    | [] => none
  else none

/-- The subscript substitution as in the source (with the unit lookahead). -/
def subscriptPass (l : List Char) : List Char :=
  subScanB matchSub none l

/-- The subscript substitution with the negative lookahead removed (the
comparison definition for the refinement claim). -/
def subscriptPassNoLA (l : List Char) : List Char :=
  subScanB matchSubNoLA none l

/-- Steps 2-6 of the converter: the ordered sequence of regex rewrites
applied between the symbol table and the wrap decision. -/
def texPipeline (l : List Char) : List Char :=
  subScan matchHat <|
  subScan matchVec <|
  subScan (litMatch "ln".data "\\ln".data) <|
  subScan (litMatch "log".data "\\log".data) <|
  subScan (litMatch "cos".data "\\cos".data) <|
  subScan (litMatch "sin".data "\\sin".data) <|
  subScan (litMatch "tan".data "\\tan".data) <|
  subscriptPass <|
  subScan matchDeg <|
  subScan matchSqrtWord <|
  subScan matchSqrtSym <|
  subScan matchFrac <|
  symbolsPass l

/-- The wrap heuristic:
`re.search(r'[=+\-*/\d]|\\(sqrt|vec|hat|frac|tan|sin|cos|log|ln)', text)`
or `re.search(r'E_{', text)`. -/
def wrapCond (l : List Char) : Bool :=
  l.any (fun c => c == '=' || c == '+' || c == '-' || c == '*' || c == '/' || c.isDigit) ||
  hasSubL "\\sqrt".data l || hasSubL "\\vec".data l || hasSubL "\\hat".data l ||
  hasSubL "\\frac".data l || hasSubL "\\tan".data l || hasSubL "\\sin".data l ||
  hasSubL "\\cos".data l || hasSubL "\\log".data l || hasSubL "\\ln".data l ||
  hasSubL "E_\x7b".data l

/-- The converter on the normalised (invisible-stripped, whitespace
stripped) text: the already-wrapped guard, the rewrite pipeline and the
wrap decision; when the wrap heuristic fails the pre-substitution text is
returned. -/
def convertCore (text : List Char) : List Char :=
  if text.isEmpty then text
  else if startsWithL "\\(".data text && endsWithL "\\)".data text then text
  else if wrapCond (texPipeline text) then
    ("\\(".data ++ texPipeline text) ++ "\\)".data
  else text

/-- The full `convert_plain_math_to_latex` on character lists. -/
def convertL (input : List Char) : List Char :=
  if input.isEmpty then input
  else convertCore (stripL (removeInv input))

/-- `convert_plain_math_to_latex` from `example.py`. -/
def convert_plain_math_to_latex (s : String) : String :=
  ⟨convertL s.data⟩

mutual
/-- A node of a BeautifulSoup fragment tree: a text leaf or an element with
a tag name, an ordered attribute list and an ordered child forest. -/
inductive HNode : Type where
  | htext : String → HNode
  | helem : String → List (String × String) → HForest → HNode
/-- An ordered forest of sibling nodes (the children of an element, or the
top-level contents of the fragment). -/
inductive HForest : Type where
  | hnil : HForest
  | hcons : HNode → HForest → HForest
end

open HNode HForest

/-- Concatenation of sibling forests (used when an element is unwrapped and
its children are spliced into the parent). -/
def appF : HForest → HForest → HForest
  | hnil, g => g
  | hcons x r, g => hcons x (appF r g)

/-- Raw text substrings of a forest in document order, skipping the
contents of `script` and `style` elements (BeautifulSoup with the
`html.parser` builder stores those as `Script`/`Stylesheet` strings, which
`get_text` does not consider text). -/
def getTextListF : HForest → List (List Char)
  | hnil => []
  | hcons (htext s) r => s.data :: getTextListF r
  | hcons (helem n _ c) r =>
    (if n == "script" || n == "style" then [] else getTextListF c) ++ getTextListF r

/-- `tag.get_text(strip=True)` on a child forest: each text substring is
stripped and the results are concatenated. -/
def getTextStripC (c : HForest) : String :=
  ⟨((getTextListF c).map stripL).flatten⟩

/-- Step 1 of `clean_html_and_extract_math_text`: every `fmath` /
`mjx-container` element is replaced in place by a text leaf holding its
stripped text content. -/
def mathExtractF : HForest → HForest
  | hnil => hnil
  | hcons (htext s) r => hcons (htext s) (mathExtractF r)
  | hcons (helem n a c) r =>
    if n == "fmath" || n == "mjx-container" then
      hcons (htext (getTextStripC c)) (mathExtractF r)
    else hcons (helem n a (mathExtractF c)) (mathExtractF r)

/-- Attribute-value cleaning: `str(v).strip()`, and for `src`/`href` also
`rstrip('\\').strip()`. -/
def cleanVal (k : String) (v : String) : String :=
  let v1 := stripL v.data
  if k == "src" || k == "href" then ⟨stripL (stripEndL (fun c => c == '\\') v1)⟩
  else ⟨v1⟩

/-- Attribute cleaning for one element: non-`img`/`a` tags lose all
attributes; `img`/`a` keep only `src`/`alt`/`href` (cleaned, in original
order). -/
def cleanAttrs (n : String) (a : List (String × String)) : List (String × String) :=
  if n == "img" || n == "a" then
    (a.filter (fun kv => kv.1 == "src" || kv.1 == "alt" || kv.1 == "href")).map
      (fun kv => (kv.1, cleanVal kv.1 kv.2))
  else []

/-- Step 2: the attribute-stripping pass over every element. -/
def attrStripF : HForest → HForest
  | hnil => hnil
  | hcons (htext s) r => hcons (htext s) (attrStripF r)
  | hcons (helem n a c) r => hcons (helem n (cleanAttrs n a) (attrStripF c)) (attrStripF r)

/-- Remove every element whose tag name satisfies `p`, together with its
entire subtree (`tag.decompose()` applied to all matches). -/
def dropTagsF (p : String → Bool) : HForest → HForest
  | hnil => hnil
  | hcons (htext s) r => hcons (htext s) (dropTagsF p r)
  | hcons (helem n a c) r =>
    if p n then dropTagsF p r
    else hcons (helem n a (dropTagsF p c)) (dropTagsF p r)

/-- Replace every element named `t` by its children, recursively
(`tag.unwrap()` applied to all matches). -/
def unwrapAllF (t : String) : HForest → HForest
  | hnil => hnil
  | hcons (htext s) r => hcons (htext s) (unwrapAllF t r)
  | hcons (helem n a c) r =>
    if n == t then appF (unwrapAllF t c) (unwrapAllF t r)
    else hcons (helem n a (unwrapAllF t c)) (unwrapAllF t r)

/-- Step 3: the tag-discard pass, in the source's list order
(`div span h6 table tr td style script input label form`), with `style`
and `script` decomposed and the rest unwrapped. -/
def discardPassF (f : HForest) : HForest :=
  unwrapAllF "form" <|
  unwrapAllF "label" <|
  unwrapAllF "input" <|
  dropTagsF (fun n => n == "script") <|
  dropTagsF (fun n => n == "style") <|
  unwrapAllF "td" <|
  unwrapAllF "tr" <|
  unwrapAllF "table" <|
  unwrapAllF "h6" <|
  unwrapAllF "span" <|
  unwrapAllF "div" f

/-- `apply_latex_conversion_to_html`: every text leaf whose parent is not a
`script`/`style` element is passed through the converter; `parent` is the
enclosing tag name (`[document]` at top level). -/
def applyLatexF (parent : String) : HForest → HForest
  | hnil => hnil
  | hcons (htext s) r =>
    hcons (htext (if parent == "script" || parent == "style" then s
                  else convert_plain_math_to_latex s))
      (applyLatexF parent r)
  | hcons (helem n a c) r => hcons (helem n a (applyLatexF n c)) (applyLatexF parent r)

/-- HTML escaping of text content (`&`, `<`, `>`), as in BeautifulSoup's
minimal formatter. -/
def escTextL (l : List Char) : List Char :=
  (l.map (fun c =>
    if c == '&' then "&amp;".data
    else if c == '<' then "&lt;".data
    else if c == '>' then "&gt;".data
    else [c])).flatten

/-- HTML escaping of attribute values (additionally quotes). -/
def escAttrL (l : List Char) : List Char :=
  (l.map (fun c =>
    if c == '&' then "&amp;".data
    else if c == '<' then "&lt;".data
    else if c == '>' then "&gt;".data
    else if c == '"' then "&quot;".data
    else [c])).flatten

/-- The empty-element (void) tags, serialized self-closing by the
`html.parser` tree builder. -/
def isVoid (n : String) : Bool :=
  ["area", "base", "br", "col", "embed", "hr", "img", "input", "keygen",
   "link", "menuitem", "meta", "param", "source", "track", "wbr"].contains n

/-- Serialization of an attribute list: ` k="v"` for each pair, in order. -/
def attrsStrL (a : List (String × String)) : List Char :=
  (a.map (fun kv => ' ' :: (kv.1.data ++ ('=' :: '"' :: escAttrL kv.2.data) ++ "\"".data))).flatten

/-- Serialization of a forest (`soup.decode_contents()`). -/
def serializeF : HForest → List Char
  | hnil => []
  | hcons (htext s) r => escTextL s.data ++ serializeF r
  | hcons (helem n a c) r =>
    ('<' :: (n.data ++ attrsStrL a)) ++
    (if isVoid n then "/>".data ++ serializeF r
     else '>' :: (serializeF c ++ ("</".data ++ n.data ++ (">".data ++ serializeF r))))

/-- Matcher for `\s{2,}` with replacement `' '`. -/
def matchWs (l : List Char) : Option (List Char × Nat) :=
  let w := l.takeWhile pyIsSpace
  if 2 ≤ w.length then some ([' '], w.length - 1) else none

/-- One `<br\s*/?>\s*` group of the line-break-collapse pattern; returns
the number of characters it consumes. -/
def brUnit (l : List Char) : Option Nat :=
  if startsWithL "<br".data l then
    let r := l.drop 3
    let w := r.takeWhile pyIsSpace
    match r.drop w.length with
    | '/' :: '>' :: rest2 => some (3 + w.length + 2 + (rest2.takeWhile pyIsSpace).length)
    | '>' :: rest2 => some (3 + w.length + 1 + (rest2.takeWhile pyIsSpace).length)
    | _ => none
  else none

/-- Maximal chain of `brUnit` groups: number of groups and total characters
consumed (fuelled; one unit consumes at least four characters). -/
def brChainF : Nat → List Char → Nat × Nat
  | 0, _ => (0, 0)
  | fuel + 1, l =>
    match brUnit l with
    | none => (0, 0)
    | some n =>
      let p := brChainF fuel (l.drop n)
      (p.1 + 1, n + p.2)

/-- Matcher for `(<br\s*/?>\s*){2,}` with replacement `<br/>`. -/
def matchBr (l : List Char) : Option (List Char × Nat) :=
  let p := brChainF l.length l
  if 2 ≤ p.1 then some ("<br/>".data, p.2 - 1) else none

/-- Characters allowed inside the URL class `[^\s"\'<>]`. -/
def urlCh (c : Char) : Bool :=
  !(pyIsSpace c || c == '"' || c == '\'' || c == '<' || c == '>')

/-- The lookahead class `["\'\s>]` of the stray-backslash pattern. -/
def lookCh (c : Char) : Bool :=
  pyIsSpace c || c == '"' || c == '\'' || c == '>'

/-- Matcher for `(https?://[^\s"\'<>]+)\\+(?=(["\'\s>]))` with replacement
`\1\2`.  Backslash is itself a URL-class character, so the greedy group
swallows the trailing backslash run and backtracks exactly one character;
the captured lookahead character is inserted by `\2` but, being
zero-width, also remains in the text. -/
def matchStray (l : List Char) : Option (List Char × Nat) :=
  let pl : Option Nat :=
    if startsWithL "https://".data l then some 8
    else if startsWithL "http://".data l then some 7
    else none
  match pl with
  | none => none
  | some pl =>
    let v := (l.drop pl).takeWhile urlCh
    if 2 ≤ v.length && (v.getLast? == some '\\') then
      match (l.drop (pl + v.length)).head? with
      | some c =>
        if lookCh c then some ((l.take pl ++ v.dropLast) ++ [c], pl + v.length - 1)
        else none
      | none => none
    else none

/-- The block/inline openers accepted by the final block-wrap guarantee. -/
def blockTags : List String :=
  ["<p", "<img", "<ul", "<ol", "<li", "<br", "<strong", "<em", "<a",
   "<h1", "<h2", "<h3", "<h4", "<h5"]

/-- Whether the (lower-cased) serialized fragment already starts with one
of the accepted block openers. -/
def startsBlockL (l : List Char) : Bool :=
  blockTags.any (fun t => startsWithL t.data (l.map Char.toLower))

/-- `clean_html_and_extract_math_text` from `example.py`, on the parsed
fragment tree (BeautifulSoup parsing and its serialize/re-parse round
trip inside `apply_latex_conversion_to_html` are modelled as the identity
on the node tree). -/
def clean_html_and_extract_math_text (f : HForest) : String :=
  let f3 := discardPassF (attrStripF (mathExtractF f))
  let s0 := serializeF (applyLatexF "[document]" f3)
  let s1 := stripL (subScan matchWs s0)
  let s2 := stripL (subScan matchBr s1)
  let s3 := subScan (litMatch "<br>".data "<br/>".data) s2
  let s4 := subScan matchStray s3
  if s4.isEmpty then ⟨s4⟩
  else if startsBlockL s4 then ⟨s4⟩
  else ⟨("<p>".data ++ s4) ++ "</p>".data⟩

/-- Tag predicate selecting the destructively discarded tags
(`style`, `script`). -/
def isScriptStyle (n : String) : Bool :=
  n == "style" || n == "script"

end QExtract

namespace QExtract

/-! Helper lemmas. -/

/-- Unfolding characterisation of `startsWithL`. -/
theorem startsWithL_iff : ∀ (p l : List Char), startsWithL p l = true ↔ ∃ t, l = p ++ t
  | [], l => by simp [startsWithL]
  | a :: ps, [] => by simp [startsWithL]
  | a :: ps, c :: cs => by
    simp only [startsWithL, Bool.and_eq_true, beq_iff_eq, startsWithL_iff ps cs]
    constructor
    · rintro ⟨rfl, t, rfl⟩; exact ⟨t, rfl⟩
    · rintro ⟨t, h⟩
      cases h
      exact ⟨rfl, t, rfl⟩

/-- If a digit is required right after the leading letter, any text whose
second character is a non-digit is rejected by the subscript matcher. -/
theorem matchSubNoLA_second_not_digit (p : Option Char) (a b : Char) (t : List Char)
    (hb : b.isDigit = false) : matchSubNoLA p (a :: b :: t) = none := by
  unfold matchSubNoLA
  cases hB : atBoundary p
  · rfl
  · simp only [if_pos rfl]
    cases ha : a.isAlpha
    · simp [ha]
    · simp [ha, List.takeWhile_cons, hb]

/-- C10 core: at every position, the subscript matcher with the
unit-abbreviation negative lookahead agrees with the one without it,
because every abbreviation's second character is a letter while the
pattern demands a digit there. -/
theorem matchSub_eq_matchSubNoLA : matchSub = matchSubNoLA := by
  funext p l
  cases hB : atBoundary p
  · unfold matchSub matchSubNoLA
    simp [hB]
  · cases hU : unitHit l
    · unfold matchSub
      simp [hB, hU]
    · have hnone : matchSubNoLA p l = none := by
        unfold unitHit at hU
        simp only [Bool.or_eq_true] at hU
        rcases hU with ((((((((((h | h) | h) | h) | h) | h) | h) | h) | h) | h) | h) <;>
          obtain ⟨t, rfl⟩ := (startsWithL_iff _ _).mp h <;>
          exact matchSubNoLA_second_not_digit p _ _ _ (by decide)
      unfold matchSub
      simp [hB, hU, hnone]

/-- C10 (refinement_equivalence, from the source lines 50-51): the
negative lookahead encoding the unit-abbreviation exception list in the
subscript rewrite never changes the result; the substitution is
extensionally equal to the same substitution with the lookahead removed,
since every exception entry has a letter as its second character while the
pattern requires a digit immediately after the captured letter. -/
theorem c10_lookahead_redundant : ∀ l : List Char, subscriptPass l = subscriptPassNoLA l := by
  intro l
  unfold subscriptPass subscriptPassNoLA
  rw [matchSub_eq_matchSubNoLA]

/-- C5: `convert_plain_math_to_latex "u0"` rewrites the letter-digit token
to subscript-brace form and wraps it in the inline-math delimiters. -/
theorem c5_subscript_wrap :
    convert_plain_math_to_latex "u0" = "\\(u_\x7b0\x7d\\)" := by decide

/-- C6: `convert_plain_math_to_latex "→v"` replaces the arrow by the
intermediate marker, brace-wraps the following identifier, and wraps the
result in the inline-math delimiters. -/
theorem c6_vector_completion :
    convert_plain_math_to_latex "→v" = "\\(\\vec\x7bv\x7d\\)" := by decide

/-- C1 counterexample: on `"1/√3"` the output of the converter does not
contain a fraction command at all — the fraction pattern's token class
excludes the root symbol, so the rewrite cannot fire. -/
theorem c1_fraction_counterexample :
    hasSubL "\\frac".data (convert_plain_math_to_latex "1/√3").data = false := by decide

/-- C1 amended: `convert_plain_math_to_latex "1/√3"` leaves the slash
untouched (no fraction), converts the root by the symbol rule and then
re-matches it with the literal-`sqrt` rule, yielding doubled braces; the
slash/digit triggers the wrap. -/
theorem c1_fraction_amended :
    convert_plain_math_to_latex "1/√3" = "\\(1/\\\\sqrt\x7b\x7b3\x7d\x7d\\)" := by decide

/-- C2 (code bug evaluation): the degree rewrite replaces the matched
`60∘` by `^{\circ}` without the captured digits, the wrap heuristic then
finds no trigger, and the converter returns the original input unchanged —
instead of the documented `60^{\circ}`. -/
theorem c2_degree_code_eval :
    convert_plain_math_to_latex "60∘" = "60∘" := by decide

/-- C3: whenever the wrap heuristic does not fire on the substituted text,
the converter returns the original input (modulo invisible-character
removal and whitespace stripping), discarding all partial substitutions. -/
theorem c3_non_math_passthrough (s : String)
    (h : wrapCond (texPipeline (stripL (removeInv s.data))) = false) :
    convert_plain_math_to_latex s = ⟨stripL (removeInv s.data)⟩ := by
  unfold convert_plain_math_to_latex convertL
  by_cases h0 : s.data.isEmpty = true
  · have h1 : s.data = [] := by simpa using h0
    simp [h1, removeInv, stripL, stripEndL]
  · rw [if_neg h0]
    unfold convertCore
    by_cases h2 : (stripL (removeInv s.data)).isEmpty = true
    · rw [if_pos h2]
    · rw [if_neg h2]
      by_cases h3 : (startsWithL "\\(".data (stripL (removeInv s.data)) &&
          endsWithL "\\)".data (stripL (removeInv s.data))) = true
      · rw [if_pos h3]
      · rw [if_neg h3, if_neg (by simp [h])]

/-- C3 witness: `"Hello world"` triggers no substitution and no wrap, and
passes through unchanged. -/
theorem c3_non_math_passthrough_witness :
    convert_plain_math_to_latex "Hello world" = "Hello world" := by
  have h := c3_non_math_passthrough "Hello world" (by decide)
  simpa using h

/-! Invariants of the converter used for the idempotence claim: its output
contains no invisible characters and is already whitespace-stripped. -/

theorem all_of_sublist {q : Char → Bool} {l₁ l₂ : List Char}
    (h : List.Sublist l₁ l₂) (h2 : l₂.all q = true) : l₁.all q = true := by
  rw [List.all_eq_true] at *
  exact fun x hx => h2 x (h.subset hx)

theorem dropWhile_head_not {p : Char → Bool} {l : List Char} {a : Char}
    (h : (l.dropWhile p).head? = some a) : p a = false := by
  have h2 := List.head?_dropWhile_not p l
  rw [h] at h2
  exact h2

theorem dropWhile_idem (p : Char → Bool) (l : List Char) :
    (l.dropWhile p).dropWhile p = l.dropWhile p := by
  cases hh : l.dropWhile p with
  | nil => rfl
  | cons a t =>
    have ha : p a = false := dropWhile_head_not (by rw [hh]; rfl)
    rw [List.dropWhile_cons, ha]
    simp

theorem stripEndL_sublist (p : Char → Bool) (l : List Char) :
    List.Sublist (stripEndL p l) l := by
  unfold stripEndL
  have h : List.Sublist (l.reverse.dropWhile p) l.reverse := List.dropWhile_sublist _
  simpa using h.reverse

theorem stripL_sublist (l : List Char) : List.Sublist (stripL l) l :=
  (stripEndL_sublist _ _).trans (List.dropWhile_sublist _)

theorem stripL_idem (l : List Char) : stripL (stripL l) = stripL l := by
  unfold stripL stripEndL
  set y := l.dropWhile pyIsSpace with hy
  have hpre : (y.reverse.dropWhile pyIsSpace).reverse <+: y := by
    rw [← List.reverse_suffix]
    simpa using List.dropWhile_suffix (l := y.reverse) pyIsSpace
  set z := (y.reverse.dropWhile pyIsSpace).reverse with hz
  have hdz : z.dropWhile pyIsSpace = z := by
    cases hc : z with
    | nil => rfl
    | cons a t =>
      obtain ⟨u, hu⟩ := hpre
      have hya : y.head? = some a := by rw [← hu, hc]; rfl
      have ha : pyIsSpace a = false := by
        rcases hyy : y with _ | ⟨b, v⟩
        · rw [hyy] at hya; cases hya
        · have hb : pyIsSpace b = false := dropWhile_head_not (by rw [← hy, hyy]; rfl)
          rw [hyy] at hya
          cases hya
          exact hb
      rw [List.dropWhile_cons, ha]
      simp
  rw [hdz, hz, List.reverse_reverse, dropWhile_idem]

theorem stripL_eq_self {l : List Char}
    (h1 : ∀ a, l.head? = some a → pyIsSpace a = false)
    (h2 : ∀ a, l.getLast? = some a → pyIsSpace a = false) : stripL l = l := by
  unfold stripL stripEndL
  have hd : l.dropWhile pyIsSpace = l := by
    cases l with
    | nil => rfl
    | cons a t =>
      rw [List.dropWhile_cons, h1 a rfl]
      simp
  rw [hd]
  cases hr : l.reverse with
  | nil => simp [List.reverse_eq_nil_iff.mp hr]
  | cons b u =>
    have hb : l.getLast? = some b := by rw [← List.head?_reverse, hr]; rfl
    rw [List.dropWhile_cons, h2 b hb]
    have hif : (if (false = true) then List.dropWhile pyIsSpace u else b :: u) = b :: u := by
      simp
    rw [hif, ← hr, List.reverse_reverse]

theorem removeInv_all (l : List Char) : (removeInv l).all notInvCh = true := by
  rw [List.all_eq_true]
  intro x hx
  exact (List.mem_filter.mp hx).2

theorem removeInv_id {l : List Char} (h : l.all notInvCh = true) : removeInv l = l := by
  unfold removeInv
  exact List.filter_eq_self.mpr (List.all_eq_true.mp h)

theorem replCh_all {q : Char → Bool} {c : Char} {rep l : List Char}
    (hr : rep.all q = true) (hl : l.all q = true) : (replCh c rep l).all q = true := by
  unfold replCh
  rw [List.all_eq_true]
  intro x hx
  rw [List.mem_flatten] at hx
  obtain ⟨piece, hp, hxp⟩ := hx
  rw [List.mem_map] at hp
  obtain ⟨a, ha, rfl⟩ := hp
  by_cases hac : (a == c) = true
  · rw [if_pos hac] at hxp
    exact List.all_eq_true.mp hr x hxp
  · rw [if_neg hac] at hxp
    rw [List.mem_singleton] at hxp
    subst hxp
    exact List.all_eq_true.mp hl x ha

theorem symbolsPass_notInv {l : List Char} (h : l.all notInvCh = true) :
    (symbolsPass l).all notInvCh = true := by
  unfold symbolsPass
  apply replCh_all (by decide)
  apply replCh_all (by decide)
  apply replCh_all (by decide)
  apply replCh_all (by decide)
  apply replCh_all (by decide)
  apply replCh_all (by decide)
  apply replCh_all (by decide)
  apply replCh_all (by decide)
  exact replCh_all (by decide) h

theorem subScanF_all {q : Char → Bool} {f : List Char → Option (List Char × Nat)}
    (hf : ∀ l rep k, f l = some (rep, k) → l.all q = true → rep.all q = true) :
    ∀ fuel l, l.all q = true → (subScanF f fuel l).all q = true
  | 0, _, h => h
  | _ + 1, [], _ => rfl
  | fuel + 1, c :: cs, h => by
    have hc : q c = true := by
      rw [List.all_cons, Bool.and_eq_true] at h
      exact h.1
    have hcs : cs.all q = true := by
      rw [List.all_cons, Bool.and_eq_true] at h
      exact h.2
    unfold subScanF
    cases hm : f (c :: cs) with
    | none =>
      simp only [hm]
      rw [List.all_cons, Bool.and_eq_true]
      exact ⟨hc, subScanF_all hf fuel cs hcs⟩
    | some rk =>
      obtain ⟨rep, k⟩ := rk
      simp only [hm]
      rw [List.all_append, Bool.and_eq_true]
      refine ⟨hf _ _ _ hm h, ?_⟩
      exact subScanF_all hf fuel _
        (all_of_sublist ((List.drop_sublist _ _).trans (List.sublist_cons_self c cs)) h)

theorem subScanBF_all {q : Char → Bool}
    {f : Option Char → List Char → Option (List Char × Nat)}
    (hf : ∀ p l rep k, f p l = some (rep, k) → l.all q = true → rep.all q = true) :
    ∀ fuel p l, l.all q = true → (subScanBF f fuel p l).all q = true
  | 0, _, _, h => h
  | _ + 1, _, [], _ => rfl
  | fuel + 1, p, c :: cs, h => by
    have hc : q c = true := by
      rw [List.all_cons, Bool.and_eq_true] at h
      exact h.1
    have hcs : cs.all q = true := by
      rw [List.all_cons, Bool.and_eq_true] at h
      exact h.2
    unfold subScanBF
    cases hm : f p (c :: cs) with
    | none =>
      simp only [hm]
      rw [List.all_cons, Bool.and_eq_true]
      exact ⟨hc, subScanBF_all hf fuel (some c) cs hcs⟩
    | some rk =>
      obtain ⟨rep, k⟩ := rk
      simp only [hm]
      rw [List.all_append, Bool.and_eq_true]
      refine ⟨hf _ _ _ _ hm h, ?_⟩
      exact subScanBF_all hf fuel _ _
        (all_of_sublist ((List.drop_sublist _ _).trans (List.sublist_cons_self c cs)) h)

theorem matchFrac_notInv :
    ∀ l rep k, matchFrac l = some (rep, k) →
      l.all notInvCh = true → rep.all notInvCh = true := by
  intro l rep k hm hl
  unfold matchFrac at hm
  simp only [] at hm
  split at hm
  · exact absurd hm (by simp)
  · split at hm
    · exact absurd hm (by simp)
    · rename_i s r3 heq
      split at hm
      · split at hm
        · exact absurd hm (by simp)
        · simp only [Option.some.injEq, Prod.mk.injEq] at hm
          obtain ⟨hrep, -⟩ := hm
          subst hrep
          have hr3 : List.Sublist r3 l := by
            have h1 : List.Sublist r3 (s :: r3) := List.sublist_cons_self s r3
            rw [← heq] at h1
            exact (h1.trans (List.drop_sublist _ _)).trans (List.drop_sublist _ _)
          simp only [List.all_append, Bool.and_eq_true]
          exact ⟨⟨⟨⟨by decide, all_of_sublist (List.takeWhile_sublist _) hl⟩, by decide⟩,
            all_of_sublist ((List.takeWhile_sublist _).trans
              ((List.drop_sublist _ _).trans hr3)) hl⟩, by decide⟩
      · exact absurd hm (by simp)

theorem sqrtTry_notInv : ∀ (j : Nat) (r g : List Char) (n : Nat),
    sqrtTry r j = some (g, n) → r.all notInvCh = true → g.all notInvCh = true
  | 0, r, g, n, hm, hr => by
    unfold sqrtTry at hm
    simp only [] at hm
    split at hm
    · exact absurd hm (by simp)
    · simp only [Option.some.injEq, Prod.mk.injEq] at hm
      obtain ⟨rfl, -⟩ := hm
      exact all_of_sublist (List.takeWhile_sublist _) hr
  | j + 1, r, g, n, hm, hr => by
    unfold sqrtTry at hm
    simp only [] at hm
    split at hm
    · exact sqrtTry_notInv j r g n hm hr
    · simp only [Option.some.injEq, Prod.mk.injEq] at hm
      obtain ⟨rfl, -⟩ := hm
      exact all_of_sublist ((List.takeWhile_sublist _).trans (List.drop_sublist _ _)) hr

theorem matchSqrtSym_notInv :
    ∀ l rep k, matchSqrtSym l = some (rep, k) →
      l.all notInvCh = true → rep.all notInvCh = true := by
  intro l rep k hm hl
  unfold matchSqrtSym at hm
  split at hm
  · rename_i rest
    cases hs : sqrtTry rest (rest.takeWhile pyIsSpace).length with
    | none => rw [hs] at hm; cases hm
    | some p =>
      rw [hs] at hm
      simp only [Option.map_some', Option.some.injEq, Prod.mk.injEq] at hm
      obtain ⟨hrep, -⟩ := hm
      subst hrep
      have hrest : rest.all notInvCh = true := by
        rw [List.all_cons, Bool.and_eq_true] at hl
        exact hl.2
      simp only [List.all_append, Bool.and_eq_true]
      exact ⟨⟨by decide, sqrtTry_notInv _ _ _ _ hs hrest⟩, by decide⟩
  · exact absurd hm (by simp)

theorem matchSqrtWord_notInv :
    ∀ l rep k, matchSqrtWord l = some (rep, k) →
      l.all notInvCh = true → rep.all notInvCh = true := by
  intro l rep k hm hl
  unfold matchSqrtWord at hm
  split at hm
  · cases hs : sqrtTry (l.drop 4) ((l.drop 4).takeWhile pyIsSpace).length with
    | none => rw [hs] at hm; cases hm
    | some p =>
      rw [hs] at hm
      simp only [Option.map_some', Option.some.injEq, Prod.mk.injEq] at hm
      obtain ⟨hrep, -⟩ := hm
      subst hrep
      simp only [List.all_append, Bool.and_eq_true]
      exact ⟨⟨by decide, sqrtTry_notInv _ _ _ _ hs
        (all_of_sublist (List.drop_sublist _ _) hl)⟩, by decide⟩
  · exact absurd hm (by simp)

theorem matchDeg_rep : ∀ l rep k, matchDeg l = some (rep, k) → rep = degRep := by
  intro l rep k hm
  unfold matchDeg at hm
  simp only [] at hm
  split at hm
  · exact absurd hm (by simp)
  · split at hm
    · simp only [Option.some.injEq, Prod.mk.injEq] at hm
      exact hm.1.symm
    · split at hm
      · simp only [Option.some.injEq, Prod.mk.injEq] at hm
        exact hm.1.symm
      · simp only [Option.some.injEq, Prod.mk.injEq] at hm
        exact hm.1.symm
      · exact absurd hm (by simp)

theorem litMatch_rep : ∀ pat rep0 l rep k, litMatch pat rep0 l = some (rep, k) → rep = rep0 := by
  intro pat rep0 l rep k hm
  unfold litMatch at hm
  split at hm
  · exact absurd hm (by simp)
  · split at hm
    · simp only [Option.some.injEq, Prod.mk.injEq] at hm
      exact hm.1.symm
    · exact absurd hm (by simp)

theorem litPass_notInv (pat rep0 : List Char) (h0 : rep0.all notInvCh = true) :
    ∀ l rep k, litMatch pat rep0 l = some (rep, k) →
      l.all notInvCh = true → rep.all notInvCh = true := by
  intro l rep k hm _
  rw [litMatch_rep _ _ _ _ _ hm]
  exact h0

theorem matchVec_notInv :
    ∀ l rep k, matchVec l = some (rep, k) →
      l.all notInvCh = true → rep.all notInvCh = true := by
  intro l rep k hm hl
  unfold matchVec at hm
  simp only [] at hm
  split at hm
  · split at hm
    · exact absurd hm (by simp)
    · simp only [Option.some.injEq, Prod.mk.injEq] at hm
      obtain ⟨hrep, -⟩ := hm
      subst hrep
      simp only [List.all_append, Bool.and_eq_true]
      exact ⟨⟨by decide, all_of_sublist ((List.takeWhile_sublist _).trans
        (List.drop_sublist _ _)) hl⟩, by decide⟩
  · exact absurd hm (by simp)

theorem matchHat_notInv :
    ∀ l rep k, matchHat l = some (rep, k) →
      l.all notInvCh = true → rep.all notInvCh = true := by
  intro l rep k hm hl
  unfold matchHat at hm
  split at hm
  · split at hm
    · rename_i c tail heq
      split at hm
      · simp only [Option.some.injEq, Prod.mk.injEq] at hm
        obtain ⟨hrep, -⟩ := hm
        subst hrep
        have hc : notInvCh c = true := by
          have hmem : c ∈ l := by
            have h1 : c ∈ l.drop 4 := by rw [heq]; exact List.mem_cons_self c tail
            exact (List.drop_sublist _ _).subset h1
          exact List.all_eq_true.mp hl c hmem
        simp only [List.all_append, Bool.and_eq_true, List.all_cons, List.all_nil]
        exact ⟨⟨by decide, by simp [hc]⟩, by decide⟩
      · exact absurd hm (by simp)
    · exact absurd hm (by simp)
  · exact absurd hm (by simp)

theorem matchSubNoLA_notInv :
    ∀ p l rep k, matchSubNoLA p l = some (rep, k) →
      l.all notInvCh = true → rep.all notInvCh = true := by
  intro p l rep k hm hl
  unfold matchSubNoLA at hm
  simp only [] at hm
  split at hm
  · split at hm
    · rename_i c rest
      split at hm
      · split at hm
        · exact absurd hm (by simp)
        · split at hm
          · simp only [Option.some.injEq, Prod.mk.injEq] at hm
            obtain ⟨hrep, -⟩ := hm
            subst hrep
            rw [List.all_cons, Bool.and_eq_true] at hl
            simp only [List.all_append, Bool.and_eq_true, List.all_cons, List.all_nil]
            exact ⟨⟨⟨by simp [hl.1], by decide⟩,
              all_of_sublist (List.takeWhile_sublist _) hl.2⟩, by decide⟩
          · exact absurd hm (by simp)
      · exact absurd hm (by simp)
    · exact absurd hm (by simp)
  · exact absurd hm (by simp)

theorem matchSub_notInv :
    ∀ p l rep k, matchSub p l = some (rep, k) →
      l.all notInvCh = true → rep.all notInvCh = true := by
  intro p l rep k hm hl
  unfold matchSub at hm
  split at hm
  · split at hm
    · exact absurd hm (by simp)
    · exact matchSubNoLA_notInv p l rep k hm hl
  · exact absurd hm (by simp)

theorem texPipeline_notInv {l : List Char} (h : l.all notInvCh = true) :
    (texPipeline l).all notInvCh = true := by
  unfold texPipeline subscriptPass subScan subScanB
  apply subScanF_all matchHat_notInv
  apply subScanF_all matchVec_notInv
  apply subScanF_all (litPass_notInv _ _ (by decide))
  apply subScanF_all (litPass_notInv _ _ (by decide))
  apply subScanF_all (litPass_notInv _ _ (by decide))
  apply subScanF_all (litPass_notInv _ _ (by decide))
  apply subScanF_all (litPass_notInv _ _ (by decide))
  apply subScanBF_all matchSub_notInv
  apply subScanF_all (fun l rep k hm _ => by rw [matchDeg_rep _ _ _ hm]; decide)
  apply subScanF_all matchSqrtWord_notInv
  apply subScanF_all matchSqrtSym_notInv
  apply subScanF_all matchFrac_notInv
  exact symbolsPass_notInv h

theorem stripL_wrap (x : List Char) :
    stripL (("\\(".data ++ x) ++ "\\)".data) = ("\\(".data ++ x) ++ "\\)".data := by
  apply stripL_eq_self
  · intro a ha
    have hh : (("\\(".data ++ x) ++ "\\)".data).head? = some '\\' := rfl
    rw [hh] at ha
    cases ha
    decide
  · intro a ha
    have hh : (("\\(".data ++ x) ++ "\\)".data).getLast? = some ')' := by
      show (("\\(".data ++ x) ++ (['\\'] ++ [')'])).getLast? = some ')'
      rw [← List.append_assoc]
      exact List.getLast?_concat _
    rw [hh] at ha
    cases ha
    decide

theorem convertCore_all {t : List Char} (h : t.all notInvCh = true) :
    (convertCore t).all notInvCh = true := by
  unfold convertCore
  split
  · exact h
  · split
    · exact h
    · split
      · simp only [List.all_append, Bool.and_eq_true]
        exact ⟨⟨by decide, texPipeline_notInv h⟩, by decide⟩
      · exact h

theorem convertL_all (l : List Char) : (convertL l).all notInvCh = true := by
  unfold convertL
  split
  · rename_i h
    have hnil : l = [] := by simpa using h
    rw [hnil]
    rfl
  · exact convertCore_all (all_of_sublist (stripL_sublist _) (removeInv_all l))

theorem convertCore_strip {t : List Char} (ht : stripL t = t) :
    stripL (convertCore t) = convertCore t := by
  unfold convertCore
  split
  · exact ht
  · split
    · exact ht
    · split
      · exact stripL_wrap _
      · exact ht

theorem convertL_strip_fix (l : List Char) : stripL (convertL l) = convertL l := by
  unfold convertL
  split
  · rename_i h
    have hnil : l = [] := by simpa using h
    rw [hnil]
    rfl
  · exact convertCore_strip (stripL_idem _)

/-- C4: once the converter has produced an output wrapped in the
inline-math delimiters, feeding that output back in returns it unchanged —
the output carries no invisible characters and no surrounding whitespace,
so the already-wrapped guard fires. -/
theorem c4_idempotence_guard (s : String)
    (h1 : startsWithL "\\(".data (convert_plain_math_to_latex s).data = true)
    (h2 : endsWithL "\\)".data (convert_plain_math_to_latex s).data = true) :
    convert_plain_math_to_latex (convert_plain_math_to_latex s) =
      convert_plain_math_to_latex s := by
  have hAll : ((convert_plain_math_to_latex s).data).all notInvCh = true :=
    convertL_all s.data
  have hStrip : stripL (convert_plain_math_to_latex s).data =
      (convert_plain_math_to_latex s).data :=
    convertL_strip_fix s.data
  show (⟨convertL (convert_plain_math_to_latex s).data⟩ : String) =
    ⟨(convert_plain_math_to_latex s).data⟩
  generalize hg : (convert_plain_math_to_latex s).data = r at h1 h2 hAll hStrip
  congr 1
  have hne : r.isEmpty = false := by
    cases r with
    | nil => exact absurd h1 (by decide)
    | cons a t => rfl
  unfold convertL
  rw [if_neg (by rw [hne]; exact Bool.false_ne_true)]
  rw [removeInv_id hAll, hStrip]
  unfold convertCore
  rw [if_neg (by rw [hne]; exact Bool.false_ne_true)]
  rw [if_pos (by rw [h1, h2]; rfl)]

/-- C4 witness: the wrapped output for `"u0"` is a fixed point of the
converter. -/
theorem c4_idempotence_guard_witness :
    convert_plain_math_to_latex (convert_plain_math_to_latex "u0") =
      convert_plain_math_to_latex "u0" :=
  c4_idempotence_guard "u0" (by decide) (by decide)

open HNode HForest

/-- C7: the div/span wrappers are unwrapped, the class attribute stripped,
the text leaf math-converted, and the block-wrap guarantee adds the
paragraph element. -/
theorem c7_structural_sanitizer :
    clean_html_and_extract_math_text
      (hcons (helem "div" [("class", "x")]
        (hcons (helem "span" [] (hcons (htext "A0") hnil)) hnil)) hnil) =
    "<p>\\(A_\x7b0\x7d\\)</p>" := by decide

/-- C9: on an `a` element only allowlisted attribute keys survive
(`onclick` dropped), trailing backslashes are stripped from the `href`
value, and the anchor start tag satisfies the block-wrap check. -/
theorem c9_attr_allowlist :
    clean_html_and_extract_math_text
      (hcons (helem "a" [("href", "http://x\\\\"), ("onclick", "y")]
        (hcons (htext "t") hnil)) hnil) =
    "<a href=\"http://x\">t</a>" := by decide

/-! Commutation lemmas between the sanitizer passes and the removal of
`script`/`style` subtrees, for the discard-destructiveness claim. -/

theorem dropTagsF_appF (p : String → Bool) :
    ∀ x y, dropTagsF p (appF x y) = appF (dropTagsF p x) (dropTagsF p y)
  | hnil, y => rfl
  | hcons (htext s) r, y => by
    simp only [appF, dropTagsF]
    rw [dropTagsF_appF p r y]
  | hcons (helem n a c) r, y => by
    simp only [appF, dropTagsF]
    by_cases h : p n = true
    · simp only [h, if_true]
      rw [dropTagsF_appF p r y]
    · simp only [h, if_false, Bool.false_eq_true]
      rw [dropTagsF_appF p r y]
      rfl

theorem unwrapAllF_dropTagsF (t : String) (p : String → Bool) (hp : p t = false) :
    ∀ f, unwrapAllF t (dropTagsF p f) = dropTagsF p (unwrapAllF t f)
  | hnil => rfl
  | hcons (htext s) r => by
    simp only [dropTagsF, unwrapAllF]
    rw [unwrapAllF_dropTagsF t p hp r]
  | hcons (helem n a c) r => by
    by_cases hpn : p n = true
    · have hnt : (n == t) = false := by
        cases hq : (n == t)
        · rfl
        · have heq : n = t := by simpa using hq
          rw [heq, hp] at hpn
          cases hpn
      simp only [dropTagsF, unwrapAllF, hpn, hnt, if_true, if_false, Bool.false_eq_true]
      exact unwrapAllF_dropTagsF t p hp r
    · by_cases hnt : (n == t) = true
      · simp only [dropTagsF, unwrapAllF, hpn, hnt, if_true, if_false, Bool.false_eq_true]
        rw [unwrapAllF_dropTagsF t p hp c, unwrapAllF_dropTagsF t p hp r,
          dropTagsF_appF]
      · simp only [dropTagsF, unwrapAllF, hpn, hnt, if_true, if_false, Bool.false_eq_true]
        rw [unwrapAllF_dropTagsF t p hp c, unwrapAllF_dropTagsF t p hp r]

theorem dropTagsF_dropTagsF (p q : String → Bool) :
    ∀ f, dropTagsF p (dropTagsF q f) = dropTagsF (fun n => q n || p n) f
  | hnil => rfl
  | hcons (htext s) r => by
    simp only [dropTagsF]
    rw [dropTagsF_dropTagsF p q r]
  | hcons (helem n a c) r => by
    by_cases hq : q n = true
    · simp only [dropTagsF, hq, Bool.true_or, if_true]
      exact dropTagsF_dropTagsF p q r
    · by_cases hp : p n = true
      · simp only [dropTagsF, hq, hp, Bool.false_eq_true, if_false, Bool.false_or, if_true]
        exact dropTagsF_dropTagsF p q r
      · simp only [dropTagsF, hq, hp, Bool.false_eq_true, if_false, Bool.false_or]
        rw [dropTagsF_dropTagsF p q c, dropTagsF_dropTagsF p q r]

theorem dropTagsF_congr {p q : String → Bool} (h : ∀ n, p n = q n) :
    ∀ f, dropTagsF p f = dropTagsF q f
  | hnil => rfl
  | hcons (htext s) r => by
    simp only [dropTagsF]
    rw [dropTagsF_congr h r]
  | hcons (helem n a c) r => by
    simp only [dropTagsF, h n]
    by_cases hq : q n = true
    · simp only [hq, if_true]
      exact dropTagsF_congr h r
    · simp only [hq, Bool.false_eq_true, if_false]
      rw [dropTagsF_congr h c, dropTagsF_congr h r]

theorem attrStripF_dropTagsF (p : String → Bool) :
    ∀ f, attrStripF (dropTagsF p f) = dropTagsF p (attrStripF f)
  | hnil => rfl
  | hcons (htext s) r => by
    simp only [dropTagsF, attrStripF]
    rw [attrStripF_dropTagsF p r]
  | hcons (helem n a c) r => by
    by_cases hp : p n = true
    · simp only [dropTagsF, attrStripF, hp, if_true]
      exact attrStripF_dropTagsF p r
    · simp only [dropTagsF, attrStripF, hp, Bool.false_eq_true, if_false]
      rw [attrStripF_dropTagsF p c, attrStripF_dropTagsF p r]

theorem getTextListF_dropSS :
    ∀ f, getTextListF (dropTagsF isScriptStyle f) = getTextListF f
  | hnil => rfl
  | hcons (htext s) r => by
    simp only [dropTagsF, getTextListF]
    rw [getTextListF_dropSS r]
  | hcons (helem n a c) r => by
    by_cases hs : isScriptStyle n = true
    · have hcond : (n == "script" || n == "style") = true := by
        unfold isScriptStyle at hs
        cases h1 : n == "style" <;> cases h2 : n == "script" <;>
          simp [h1, h2] at hs ⊢
      simp only [dropTagsF, getTextListF, hs, hcond, if_true]
      rw [getTextListF_dropSS r]
      simp
    · have hcond : (n == "script" || n == "style") = false := by
        unfold isScriptStyle at hs
        cases h1 : n == "style" <;> cases h2 : n == "script" <;>
          simp [h1, h2] at hs ⊢
      simp only [dropTagsF, getTextListF, hs, hcond, Bool.false_eq_true, if_false]
      rw [getTextListF_dropSS c, getTextListF_dropSS r]

theorem getTextStripC_dropSS (c : HForest) :
    getTextStripC (dropTagsF isScriptStyle c) = getTextStripC c := by
  unfold getTextStripC
  rw [getTextListF_dropSS c]

theorem mathExtractF_dropSS :
    ∀ f, mathExtractF (dropTagsF isScriptStyle f) =
      dropTagsF isScriptStyle (mathExtractF f)
  | hnil => rfl
  | hcons (htext s) r => by
    simp only [dropTagsF, mathExtractF]
    rw [mathExtractF_dropSS r]
  | hcons (helem n a c) r => by
    by_cases hs : isScriptStyle n = true
    · have hm : (n == "fmath" || n == "mjx-container") = false := by
        have hor : n = "style" ∨ n = "script" := by
          unfold isScriptStyle at hs
          cases h1 : n == "style"
          · cases h2 : n == "script"
            · rw [h1, h2] at hs
              cases hs
            · exact Or.inr (by simpa using h2)
          · exact Or.inl (by simpa using h1)
        rcases hor with rfl | rfl <;> rfl
      simp only [dropTagsF, mathExtractF, hs, hm, if_true, Bool.false_eq_true, if_false]
      exact mathExtractF_dropSS r
    · by_cases hm : (n == "fmath" || n == "mjx-container") = true
      · simp only [dropTagsF, mathExtractF, hs, hm, if_true, Bool.false_eq_true, if_false]
        rw [getTextStripC_dropSS c, mathExtractF_dropSS r]
      · simp only [dropTagsF, mathExtractF, hs, hm, Bool.false_eq_true, if_false]
        rw [mathExtractF_dropSS c, mathExtractF_dropSS r]

theorem drop_style_script (y : HForest) :
    dropTagsF (fun n => n == "script") (dropTagsF (fun n => n == "style") y) =
    dropTagsF isScriptStyle y := by
  rw [dropTagsF_dropTagsF]
  rfl

theorem discardPassF_dropSS (x : HForest) :
    discardPassF (dropTagsF isScriptStyle x) = discardPassF x := by
  unfold discardPassF
  rw [unwrapAllF_dropTagsF "div" _ (by decide),
    unwrapAllF_dropTagsF "span" _ (by decide),
    unwrapAllF_dropTagsF "h6" _ (by decide),
    unwrapAllF_dropTagsF "table" _ (by decide),
    unwrapAllF_dropTagsF "tr" _ (by decide),
    unwrapAllF_dropTagsF "td" _ (by decide)]
  simp only [drop_style_script]
  rw [dropTagsF_dropTagsF]
  rw [dropTagsF_congr (fun n => Bool.or_self _)]

/-- C8: the sanitizer's output is entirely independent of every `script`
and `style` element and its subtree — removing those subtrees from the
input beforehand yields exactly the same output, so neither such an
element nor any part of its content (including its text) can appear in or
influence the result. -/
theorem c8_script_discard (f : HForest) :
    clean_html_and_extract_math_text (dropTagsF isScriptStyle f) =
      clean_html_and_extract_math_text f := by
  unfold clean_html_and_extract_math_text
  rw [mathExtractF_dropSS, attrStripF_dropTagsF, discardPassF_dropSS]

end QExtract


